import Mathlib

/-!
Verification of the prefix-detection and rename-planning core of the
audio-tool repository (src/main.go).

Go strings are byte sequences; we model them as lists of natural numbers,
one entry per byte.  All functions below are translated from src/main.go:
`findCommonPrefix` (lines 19-81), `findMajorityPrefix` (lines 85-141), the
rename-plan loop of `processDirectory` (lines 248-267) and its confirmation
step (lines 292-307).  Go's `strings.TrimSpace` and `strings.ToLower` are
modelled on the ASCII range (the bytes they touch in every statement
proved here); their non-ASCII Unicode behaviour is not exercised by any
theorem in this file.
-/

namespace AudioTool

/-- A Go string: a sequence of bytes, one natural number per byte. -/
abbrev ByteStr := List Nat

/-- The ASCII separator bytes of the backward scans in `findCommonPrefix`
(main.go line 65) and `findMajorityPrefix` (line 119): - _ space ) ]. -/
def isSepByte (c : Nat) : Bool :=
  c == 45 || c == 95 || c == 32 || c == 41 || c == 93

/-- The backward separator scan of `findCommonPrefix` (main.go lines 62-74)
and `findMajorityPrefix` (lines 116-128).  The argument `n` is the number of
positions still to inspect, so position `n - 1` is looked at first;
`some (i + 1)` is the value Go assigns to `lastSep` when the loop breaks at
index `i`, `none` is Go's `-1`. -/
def lastSepAux (p : ByteStr) : Nat → Option Nat
  | 0 => none
  | i + 1 =>
    if isSepByte (p.getD i 0) then some (i + 1)
    else if 2 ≤ i ∧ p.getD (i - 2) 0 = 227 ∧ p.getD (i - 1) 0 = 128 ∧
        p.getD i 0 = 145 then some (i + 1)
    else lastSepAux p i

/-- The full backward scan over a candidate: Go's `lastSep` after the loop. -/
def findLastSep (p : ByteStr) : Option Nat :=
  lastSepAux p p.length

/-- The separator-aware trimming that ends `findCommonPrefix` (main.go lines
76-80): cut right after the last separator when one was found strictly inside
the candidate, otherwise return the candidate unmodified. -/
def trimAtSep (p : ByteStr) : ByteStr :=
  match findLastSep p with
  | some ls => if 0 < ls ∧ ls < p.length then p.take ls else p
  | none => p

/-- The shortest-length computation of `findCommonPrefix` (main.go lines
28-33): `minLen` starts at the first string's length and folds over all. -/
def minLenOf (strs : List ByteStr) : Nat :=
  strs.foldl (fun m s => if s.length < m then s.length else m)
    ((strs.headD []).length)

/-- The per-position comparison of `findCommonPrefix` (main.go lines 38-45):
every filename carries the first filename's byte at position `i`. -/
def matchAt (strs : List ByteStr) (first : ByteStr) (i : Nat) : Bool :=
  strs.all (fun s => s.getD i 0 == first.getD i 0)

/-- The forward scan of `findCommonPrefix` (main.go lines 36-51): `i` is the
loop index, the second argument the iterations left; the result is the final
value of `prefixLen`. -/
def scanLen (strs : List ByteStr) (first : ByteStr) : Nat → Nat → Nat
  | i, 0 => i
  | i, fuel + 1 =>
    if matchAt strs first i then scanLen strs first (i + 1) fuel
    else i

/-- `findCommonPrefix` (main.go lines 19-81): byte-wise longest common
scan, then separator-aware trimming. -/
def findCommonPrefix (strs : List ByteStr) : ByteStr :=
  match strs with
  | [] => []
  | [_] => []
  | first :: _ :: _ =>
    let pLen := scanLen strs first 0 (minLenOf strs)
    if pLen = 0 then []
    else trimAtSep (first.take pLen)

/-- ASCII whitespace bytes: space, tab, LF, VT, FF, CR. -/
def isSpaceByte (c : Nat) : Bool :=
  c == 32 || c == 9 || c == 10 || c == 11 || c == 12 || c == 13

/-- Go `strings.TrimSpace`, on the ASCII range: drop leading and trailing
whitespace bytes. -/
def trimSpace (s : ByteStr) : ByteStr :=
  ((s.dropWhile isSpaceByte).reverse.dropWhile isSpaceByte).reverse

/-- The match count of `findMajorityPrefix` (main.go lines 106-111): how many
of the filenames start (byte-wise, Go `strings.HasPrefix`) with `p`. -/
def countPrefix (strs : List ByteStr) (p : ByteStr) : Nat :=
  strs.countP (fun s => p.isPrefixOf s)

/-- The numerator of the IEEE-754 double nearest to 0.7: the Go constant 0.7
converted to float64 is exactly 3152519739159347 / 2^52. -/
def c07num : Nat := 3152519739159347

/-- Floor of the base-2 logarithm, by structural recursion on a fuel bound
(`Nat.log2` itself is defined by well-founded recursion and does not reduce
definitionally; `natLog2_eq_log2` below shows the two agree). -/
def log2fuel : Nat → Nat → Nat
  | 0, _ => 0
  | fuel + 1, n => if 2 ≤ n then log2fuel fuel (n / 2) + 1 else 0

/-- Floor of the base-2 logarithm. -/
def natLog2 (n : Nat) : Nat := log2fuel n n

/-- Exact integer model of Go's `int(float64(n) * 0.7)` (main.go line 91)
for `n ≤ 2^53`, where `float64(n)` is exact: the exact product
`n * float64(0.7) = A / 2^52` is rounded to the nearest double (ties to
even) and the result truncated toward zero. -/
def truncMul07 (n : Nat) : Nat :=
  let A := n * c07num
  let e := natLog2 A
  if e ≤ 52 then A / 2 ^ 52
  else
    let s := e - 52
    let r := A / 2 ^ s
    let rem := A % 2 ^ s
    let half := 2 ^ (s - 1)
    let r2 :=
      if half < rem then r + 1
      else if rem < half then r
      else if r % 2 = 0 then r else r + 1
    r2 * 2 ^ s / 2 ^ 52

/-- The qualification threshold of `findMajorityPrefix` (main.go lines
91-94): the truncated float product, floored at 2. -/
def thresholdGo (n : Nat) : Nat :=
  let t := truncMul07 n
  if t < 2 then 2 else t

/-- The accept-and-trim step applied to a candidate that passed the match
count test inside `findMajorityPrefix` (main.go lines 115-131): the candidate
is kept only when the backward scan finds a separator strictly inside it, and
is then cut right after that separator. -/
def sepTrimOpt (p : ByteStr) : Option ByteStr :=
  match findLastSep p with
  | some ls => if 0 < ls ∧ ls < p.length then some (p.take ls) else none
  | none => none

/-- Processing of one candidate in `findMajorityPrefix` (main.go lines
103-137); the state is the pair (bestPrefix, bestMatchCount). -/
def stepCandidate (strs : List ByteStr) (cand : ByteStr) (st : ByteStr × Nat) :
    ByteStr × Nat :=
  let mc := countPrefix strs cand
  if thresholdGo strs.length ≤ mc ∧ st.2 < mc then
    match sepTrimOpt cand with
    | some fp => if 3 ≤ (trimSpace fp).length then (fp, mc) else st
    | none => st
  else st

/-- The candidate lengths tried from one source filename (main.go line 102):
its full length down to 3. -/
def candidateLens (s : ByteStr) : List Nat :=
  (List.range (s.length - 2)).map (fun k => s.length - k)

/-- The inner loop of `findMajorityPrefix` over one source filename. -/
def processSource (strs : List ByteStr) (st : ByteStr × Nat) (s : ByteStr) :
    ByteStr × Nat :=
  (candidateLens s).foldl (fun a L => stepCandidate strs (s.take L) a) st

/-- `findMajorityPrefix` (main.go lines 85-141). -/
def findMajorityPrefix (strs : List ByteStr) : ByteStr :=
  if strs.length < 2 then []
  else (strs.foldl (processSource strs) ([], 0)).1

/-- One entry of the rename plan built by `processDirectory` (main.go lines
240-245). -/
structure RenamePlan where
  oldPath : ByteStr
  newPath : ByteStr
  oldName : ByteStr
  newName : ByteStr
deriving DecidableEq

/-- `filepath.Join dir name` for a clean directory path and a bare filename
(the only shape `processDirectory` joins): dir ++ "/" ++ name. -/
def joinPath (dir name : ByteStr) : ByteStr :=
  dir ++ 47 :: name

/-- Go `strings.TrimPrefix` (main.go line 250): remove `pre` from the front
when it is a byte-wise prefix, else return the string unchanged. -/
def trimPrefixGo (s pre : ByteStr) : ByteStr :=
  if pre.isPrefixOf s then s.drop pre.length else s

/-- One iteration of the rename-plan loop of `processDirectory` (main.go
lines 248-267).  The files of one group all live in `dir`, so a file is
modelled by its base name and its path is `joinPath dir name`.  The
accumulator carries the plan entries and the names warned about
("filename empty after removing prefix"). -/
def planStep (dir pre : ByteStr) (acc : List RenamePlan × List ByteStr)
    (oldName : ByteStr) : List RenamePlan × List ByteStr :=
  let newName := trimSpace (trimPrefixGo oldName pre)
  if newName = [] then (acc.1, acc.2 ++ [oldName])
  else if oldName ≠ newName then
    (acc.1 ++ [⟨joinPath dir oldName, joinPath dir newName, oldName, newName⟩],
      acc.2)
  else acc

/-- The rename plan and the warning list built by `processDirectory` for one
directory group (main.go lines 248-267). -/
def buildPlans (dir pre : ByteStr) (names : List ByteStr) :
    List RenamePlan × List ByteStr :=
  names.foldl (planStep dir pre) ([], [])

/-- ASCII lowercasing of one byte (Go `strings.ToLower` on ASCII input). -/
def lowerByte (c : Nat) : Nat :=
  if 65 ≤ c ∧ c ≤ 90 then c + 32 else c

/-- The normalisation `processDirectory` applies to the operator's input line
(main.go line 300): trim surrounding whitespace, then lowercase. -/
def normalizeResponse (line : ByteStr) : ByteStr :=
  (trimSpace line).map lowerByte

/-- The affirmative test of `processDirectory` (main.go line 301): the
normalised response equals "y" or "yes". -/
def isAffirmative (line : ByteStr) : Bool :=
  let r := normalizeResponse line
  r == [121] || r == [121, 101, 115]

/-- Which renames `processDirectory` executes (main.go lines 286-312) as a
function of the plan, the two flags and the operator's input line: none in
dry-run mode; all exactly when auto-confirm is set or the line is
affirmative; none otherwise. -/
def executedRenames (plans : List RenamePlan) (dryRun autoYes : Bool)
    (line : ByteStr) : List RenamePlan :=
  if dryRun then []
  else if autoYes || isAffirmative line then plans else []

/-!
Spec-side definitions.  These follow the wording of the specification
rather than the Go loops: the shortest length as a fold of `min`, the raw
candidate as the initial run of agreeing positions, and the trim point as
the LAST position holding a separator.
-/

/-- Position `i` of `p` holds a separator in the sense of the backward
scans: an ASCII separator byte, or the closing byte of the 3-byte sequence
0xE3 0x80 0x91. -/
def sepAt (p : ByteStr) (i : Nat) : Bool :=
  isSepByte (p.getD i 0) ||
    decide (2 ≤ i ∧ p.getD (i - 2) 0 = 227 ∧ p.getD (i - 1) 0 = 128 ∧
      p.getD i 0 = 145)

/-- Spec: the byte length of the shortest filename. -/
def specMinLen (strs : List ByteStr) : Nat :=
  (strs.map List.length).foldl min ((strs.headD []).length)

/-- Spec: the number of initial positions (below the shortest length) at
which all filenames agree — "stop at the first mismatching position". -/
def specRawLen (strs : List ByteStr) : Nat :=
  ((List.range (specMinLen strs)).takeWhile (matchAt strs (strs.headD []))).length

/-- Spec: the raw candidate — the byte-slice of the first filename up to
(not including) the first mismatch. -/
def specRaw (strs : List ByteStr) : ByteStr :=
  (strs.headD []).take (specRawLen strs)

/-- Spec: the last position of `p` holding a separator, if any. -/
def specLastSepIdx (p : ByteStr) : Option Nat :=
  ((List.range p.length).filter (sepAt p)).getLast?

/-- Spec: truncate the candidate to end right after the last separator when
that separator exists and is not the final byte; otherwise return the
candidate unmodified. -/
def specTrim (p : ByteStr) : ByteStr :=
  match specLastSepIdx p with
  | some i => if i + 1 < p.length then p.take (i + 1) else p
  | none => p

/-- Spec-side `commonPrefix`: raw longest-common scan, then separator
trimming, per the specification's algorithm description. -/
def specCommonPre (strs : List ByteStr) : ByteStr :=
  specTrim (specRaw strs)

/-- `q` ends in a separator: its last byte is one of - _ space ) ], or its
last three bytes are 0xE3 0x80 0x91. -/
def endsWithSep (q : ByteStr) : Bool :=
  decide (q ≠ []) && sepAt q (q.length - 1)

/-!  Supporting lemmas.  -/

lemma log2fuel_eq_log2 : ∀ fuel n, n ≤ fuel → log2fuel fuel n = Nat.log2 n := by
  intro fuel
  induction fuel with
  | zero =>
    intro n h
    have hn : n = 0 := Nat.le_zero.mp h
    subst hn
    conv_rhs => rw [Nat.log2]
    simp [log2fuel]
  | succ fuel ih =>
    intro n h
    rw [log2fuel]
    by_cases h2 : 2 ≤ n
    · have hlt : n / 2 ≤ fuel := by
        have := Nat.div_lt_self (by omega : 0 < n) (by omega : 1 < 2)
        omega
      rw [if_pos h2, ih _ hlt]
      conv_rhs => rw [Nat.log2]
      rw [if_pos (by omega : n ≥ 2)]
    · rw [if_neg h2]
      conv_rhs => rw [Nat.log2]
      rw [if_neg (by omega : ¬ n ≥ 2)]

lemma natLog2_eq_log2 (n : Nat) : natLog2 n = Nat.log2 n :=
  log2fuel_eq_log2 n n le_rfl

lemma if_lt_eq_min (a b : Nat) : (if b < a then b else a) = min a b := by
  rcases Nat.lt_or_ge b a with h | h
  · simp [h, Nat.min_eq_right h.le]
  · simp [Nat.not_lt.mpr h, Nat.min_eq_left h]

lemma minLenOf_eq_specMinLen (strs : List ByteStr) :
    minLenOf strs = specMinLen strs := by
  have hf : (fun (m : Nat) (s : ByteStr) => if s.length < m then s.length else m)
      = fun (m : Nat) (s : ByteStr) => min m s.length :=
    funext fun m => funext fun s => if_lt_eq_min m s.length
  unfold minLenOf specMinLen
  rw [hf, List.foldl_map]

lemma foldl_minLen_le (l : List ByteStr) :
    ∀ init s, s ∈ l →
      l.foldl (fun m t => if t.length < m then t.length else m) init ≤ s.length := by
  induction l with
  | nil => intro _ s hs; cases hs
  | cons a t ih =>
    intro init s hs
    have hstep : ∀ m : Nat,
        t.foldl (fun m t => if t.length < m then t.length else m) m ≤ m := by
      clear hs ih
      induction t with
      | nil => intro m; simp
      | cons b u ihu =>
        intro m
        refine le_trans (ihu _) ?_
        by_cases h : b.length < m
        · simp [h, le_of_lt h]
        · simp [h]
    rcases List.mem_cons.mp hs with rfl | hmem
    · refine le_trans (hstep _) ?_
      by_cases h : s.length < init
      · simp [h]
      · simp [h, Nat.le_of_not_lt h]
    · exact ih _ s hmem

lemma minLenOf_le (strs : List ByteStr) : ∀ s ∈ strs, minLenOf strs ≤ s.length :=
  fun s hs => foldl_minLen_le strs _ s hs

lemma scanLen_eq (strs : List ByteStr) (first : ByteStr) :
    ∀ fuel i, scanLen strs first i fuel =
      i + ((List.range' i fuel).takeWhile (matchAt strs first)).length := by
  intro fuel
  induction fuel with
  | zero => intro i; simp [scanLen]
  | succ n ih =>
    intro i
    rw [scanLen, List.range'_succ, List.takeWhile_cons]
    by_cases h : matchAt strs first i
    · simp only [h, if_true, ih (i + 1), List.length_cons]
      omega
    · simp [h]

lemma takeWhile_range_sat {P : Nat → Bool} {m j : Nat}
    (h : j < ((List.range m).takeWhile P).length) : P j = true := by
  have hpre : (List.range m).takeWhile P <+: List.range m := List.takeWhile_prefix P
  have hj : j < (List.range m).length := lt_of_lt_of_le h hpre.length_le
  have he : ((List.range m).takeWhile P)[j] = (List.range m)[j] := hpre.getElem h
  have hmem : ((List.range m).takeWhile P)[j] ∈ (List.range m).takeWhile P :=
    List.getElem_mem h
  have hp := List.mem_takeWhile_imp hmem
  rwa [he, List.getElem_range] at hp

lemma specRawLen_le (strs : List ByteStr) : specRawLen strs ≤ specMinLen strs := by
  have := (List.takeWhile_prefix (l := List.range (specMinLen strs))
    (matchAt strs (strs.headD []))).length_le
  simpa [specRawLen] using this

lemma lastSepAux_eq (p : ByteStr) :
    ∀ n, lastSepAux p n =
      (((List.range n).filter (sepAt p)).getLast?).map (fun i => i + 1) := by
  intro n
  induction n with
  | zero => simp [lastSepAux]
  | succ n ih =>
    rw [List.range_succ, List.filter_append]
    by_cases hs : isSepByte (p.getD n 0) = true
    · have h1 : sepAt p n = true := by
        simp only [sepAt, hs, Bool.true_or]
      have hred : lastSepAux p (n + 1) = some (n + 1) := by
        simp only [lastSepAux]
        rw [if_pos hs]
      have hfil : List.filter (sepAt p) [n] = [n] := by
        rw [List.filter_cons, if_pos h1]
        rfl
      rw [hred, hfil, List.getLast?_concat]
      rfl
    · by_cases hc : 2 ≤ n ∧ p.getD (n - 2) 0 = 227 ∧ p.getD (n - 1) 0 = 128 ∧
          p.getD n 0 = 145
      · have h1 : sepAt p n = true := by
          simp only [sepAt, Bool.or_eq_true, decide_eq_true_eq]
          exact Or.inr hc
        have hred : lastSepAux p (n + 1) = some (n + 1) := by
          simp only [lastSepAux]
          rw [if_neg hs, if_pos hc]
        have hfil : List.filter (sepAt p) [n] = [n] := by
          rw [List.filter_cons, if_pos h1]
          rfl
        rw [hred, hfil, List.getLast?_concat]
        rfl
      · have h1 : ¬ sepAt p n = true := by
          simp only [sepAt, Bool.or_eq_true, decide_eq_true_eq]
          rintro (h | h)
          · exact hs h
          · exact hc h
        have hred : lastSepAux p (n + 1) = lastSepAux p n := by
          simp only [lastSepAux]
          rw [if_neg hs, if_neg hc]
        have hfil : List.filter (sepAt p) [n] = [] := by
          rw [List.filter_cons, if_neg h1]
          rfl
        rw [hred, hfil, List.append_nil, ih]

lemma findLastSep_eq (p : ByteStr) :
    findLastSep p = (specLastSepIdx p).map (fun i => i + 1) := by
  rw [findLastSep, lastSepAux_eq, specLastSepIdx]

lemma trimAtSep_eq_specTrim (p : ByteStr) : trimAtSep p = specTrim p := by
  unfold trimAtSep specTrim
  rw [findLastSep_eq]
  cases h : specLastSepIdx p with
  | none => simp
  | some i => simp [Nat.succ_pos]

lemma trimAtSep_pre (p : ByteStr) : trimAtSep p <+: p := by
  unfold trimAtSep
  cases findLastSep p with
  | none => exact List.prefix_refl p
  | some ls =>
    by_cases hc : 0 < ls ∧ ls < p.length
    · simp only [hc, if_true]
      exact List.take_prefix ls p
    · simp only [hc, if_false]
      exact List.prefix_refl p

/-- `findCommonPrefix` on a list of at least two strings equals spec-side
trimming of the spec-side raw candidate. -/
lemma findCommonPrefix_core (a b : ByteStr) (t : List ByteStr) :
    findCommonPrefix (a :: b :: t) =
      specTrim (a.take (specRawLen (a :: b :: t))) := by
  have hd : (a :: b :: t).headD [] = a := rfl
  have hlen : scanLen (a :: b :: t) a 0 (minLenOf (a :: b :: t)) =
      specRawLen (a :: b :: t) := by
    rw [scanLen_eq, minLenOf_eq_specMinLen]
    simp [specRawLen, List.range_eq_range', hd]
  by_cases hz : specRawLen (a :: b :: t) = 0
  · simp only [findCommonPrefix, hlen, hz, if_true]
    simp [specTrim, specLastSepIdx]
  · simp only [findCommonPrefix, hlen, hz, if_false]
    exact trimAtSep_eq_specTrim _

lemma take_specRawLen_pre (a b : ByteStr) (t : List ByteStr) :
    ∀ s ∈ a :: b :: t, a.take (specRawLen (a :: b :: t)) <+: s := by
  intro s hs
  have hhead : (a :: b :: t).headD [] = a := rfl
  have hKmin : specRawLen (a :: b :: t) ≤ specMinLen (a :: b :: t) :=
    specRawLen_le _
  have hKs : specRawLen (a :: b :: t) ≤ s.length := by
    refine le_trans hKmin ?_
    rw [← minLenOf_eq_specMinLen]
    exact minLenOf_le _ s hs
  have hKa : specRawLen (a :: b :: t) ≤ a.length := by
    refine le_trans hKmin ?_
    rw [← minLenOf_eq_specMinLen]
    exact minLenOf_le _ a (by simp)
  rw [List.prefix_iff_eq_take]
  have hlen : (a.take (specRawLen (a :: b :: t))).length = specRawLen (a :: b :: t) := by
    rw [List.length_take]
    exact min_eq_left hKa
  rw [hlen]
  apply List.ext_getElem
  · rw [List.length_take, List.length_take, min_eq_left hKa, min_eq_left hKs]
  · intro n h1 h2
    rw [List.getElem_take, List.getElem_take]
    have hn : n < specRawLen (a :: b :: t) := by
      rwa [hlen] at h1
    have hm : matchAt (a :: b :: t) a n = true := by
      have := takeWhile_range_sat (P := matchAt (a :: b :: t) ((a :: b :: t).headD []))
        (m := specMinLen (a :: b :: t)) (j := n) (by exact hn)
      rwa [hhead] at this
    have hall := List.all_eq_true.mp hm s hs
    have hbyte : s.getD n 0 = a.getD n 0 := by
      simpa using hall
    have hsn : n < s.length := lt_of_lt_of_le hn hKs
    have han : n < a.length := lt_of_lt_of_le hn hKa
    have hsv : s.getD n 0 = s[n] := by
      rw [List.getD_eq_getElem?_getD, List.getElem?_eq_getElem hsn]
      rfl
    have hav : a.getD n 0 = a[n] := by
      rw [List.getD_eq_getElem?_getD, List.getElem?_eq_getElem han]
      rfl
    rw [← hsv, ← hav, hbyte]

/-!  Claim theorems: findCommonPrefix.  -/

/-- C6: for every input sequence of 0 or 1 filenames, `findCommonPrefix`
returns the empty string (main.go lines 20-25). -/
theorem findCommonPrefix_short (strs : List ByteStr) (h : strs.length ≤ 1) :
    findCommonPrefix strs = [] := by
  cases strs with
  | nil => rfl
  | cons a t =>
    cases t with
    | nil => rfl
    | cons b t2 =>
      simp [List.length_cons] at h

/-- Witness for C6: the theorem applied to the empty sequence and to a
one-filename sequence. -/
theorem findCommonPrefix_short_inst :
    findCommonPrefix [] = [] ∧ findCommonPrefix [[97]] = [] :=
  ⟨findCommonPrefix_short [] (by decide), findCommonPrefix_short [[97]] (by decide)⟩

/-- C2: for at least 2 filenames, `findCommonPrefix` equals the spec-side
description: byte-wise longest common scan over positions 0..minLen-1 of the
shortest filename stopping at the first mismatch, then truncation right
after the LAST separator when that separator exists and is not the final
byte of the raw candidate, the raw candidate unmodified otherwise. -/
theorem findCommonPrefix_eq_spec (strs : List ByteStr) (h : 2 ≤ strs.length) :
    findCommonPrefix strs = specCommonPre strs := by
  match strs, h with
  | a :: b :: t, _ =>
    rw [findCommonPrefix_core]
    rfl

/-- Witness for C2 at the concrete input ["a-b1", "a-b2"]. -/
theorem findCommonPrefix_eq_spec_inst :
    2 ≤ ([[97, 45, 98, 49], [97, 45, 98, 50]] : List ByteStr).length ∧
      findCommonPrefix [[97, 45, 98, 49], [97, 45, 98, 50]] =
        specCommonPre [[97, 45, 98, 49], [97, 45, 98, 50]] :=
  ⟨by decide, findCommonPrefix_eq_spec _ (by decide)⟩

/-- C10: for at least 2 filenames, the string `findCommonPrefix` returns is a
byte-prefix of every filename of the sequence, and its byte length is at most
every filename's byte length — in particular at most the shortest one's. -/
theorem findCommonPrefix_prefix_sound (strs : List ByteStr) (h : 2 ≤ strs.length) :
    ∀ s ∈ strs, (findCommonPrefix strs).isPrefixOf s = true ∧
      (findCommonPrefix strs).length ≤ s.length := by
  match strs, h with
  | a :: b :: t, _ =>
    intro s hs
    have hcore : findCommonPrefix (a :: b :: t) <+:
        a.take (specRawLen (a :: b :: t)) := by
      rw [findCommonPrefix_core, ← trimAtSep_eq_specTrim]
      exact trimAtSep_pre _
    have hpre : findCommonPrefix (a :: b :: t) <+: s :=
      hcore.trans (take_specRawLen_pre a b t s hs)
    exact ⟨List.isPrefixOf_iff_prefix.mpr hpre, hpre.length_le⟩

/-- Witness for C10 at the concrete input ["a-b1", "a-b2"]. -/
theorem findCommonPrefix_prefix_sound_inst :
    (findCommonPrefix [[97, 45, 98, 49], [97, 45, 98, 50]]).isPrefixOf
        [97, 45, 98, 49] = true ∧
      (findCommonPrefix [[97, 45, 98, 49], [97, 45, 98, 50]]).length ≤
        ([97, 45, 98, 49] : ByteStr).length :=
  findCommonPrefix_prefix_sound _ (by decide) [97, 45, 98, 49] (by decide)

/-!  Claim theorems: the trimming step shared with findMajorityPrefix (C1).  -/

/-- C1 counterexample: on the input ["abcX", "abcY", "abcZ"] the candidate
"abc" qualifies (match count 3 ≥ threshold 2) and has whitespace-trimmed
length ≥ 3, and `findCommonPrefix`'s trimming keeps it unmodified (no
separator), yet `findMajorityPrefix` discards it and returns the empty
string: the transformation applied inside `findMajorityPrefix` is NOT the
same as the one `findCommonPrefix` applies. -/
theorem majority_drops_sepfree_candidate :
    findMajorityPrefix [[97, 98, 99, 88], [97, 98, 99, 89], [97, 98, 99, 90]] = [] ∧
    findCommonPrefix [[97, 98, 99, 88], [97, 98, 99, 89], [97, 98, 99, 90]] =
      [97, 98, 99] ∧
    sepTrimOpt [97, 98, 99] = none ∧
    trimAtSep [97, 98, 99] = [97, 98, 99] ∧
    countPrefix [[97, 98, 99, 88], [97, 98, 99, 89], [97, 98, 99, 90]]
      [97, 98, 99] = 3 ∧
    thresholdGo 3 = 2 ∧
    3 ≤ (trimSpace [97, 98, 99]).length := by
  decide

/-- C1 (amended): the candidate transformation inside `findMajorityPrefix`
agrees with `findCommonPrefix`'s trimming exactly on the candidates it
accepts: it accepts a candidate iff `findCommonPrefix`'s trimming would
strictly shorten it (a separator strictly inside), and then produces the
same trimmed string; a candidate that `findCommonPrefix`'s trimming would
keep unmodified — in particular one with no separator byte — is discarded. -/
theorem sepTrimOpt_iff_trimAtSep (p q : ByteStr) :
    sepTrimOpt p = some q ↔ trimAtSep p = q ∧ q ≠ p := by
  cases h : findLastSep p with
  | none =>
    have e1 : sepTrimOpt p = none := by
      simp only [sepTrimOpt, h]
    have e2 : trimAtSep p = p := by
      simp only [trimAtSep, h]
    rw [e1, e2]
    simp only [reduceCtorEq, false_iff, ne_eq, not_and, not_not]
    intro hq
    exact hq.symm
  | some ls =>
    by_cases hc : 0 < ls ∧ ls < p.length
    · have e1 : sepTrimOpt p = some (p.take ls) := by
        simp only [sepTrimOpt, h]
        rw [if_pos hc]
      have e2 : trimAtSep p = p.take ls := by
        simp only [trimAtSep, h]
        rw [if_pos hc]
      rw [e1, e2]
      simp only [Option.some.injEq]
      constructor
      · rintro rfl
        refine ⟨rfl, ?_⟩
        intro he
        have hl := congrArg List.length he
        rw [List.length_take] at hl
        have h2 : ls < p.length := hc.2
        have h3 : min ls p.length = ls := min_eq_left (le_of_lt h2)
        omega
      · rintro ⟨rfl, _⟩
        rfl
    · have e1 : sepTrimOpt p = none := by
        simp only [sepTrimOpt, h]
        rw [if_neg hc]
      have e2 : trimAtSep p = p := by
        simp only [trimAtSep, h]
        rw [if_neg hc]
      rw [e1, e2]
      simp only [reduceCtorEq, false_iff, ne_eq, not_and, not_not]
      intro hq
      exact hq.symm

/-- Witness for C1's amended theorem: on the candidate "a-b" the accept step
produces exactly the common trimming "a-". -/
theorem sepTrimOpt_iff_trimAtSep_inst :
    sepTrimOpt [97, 45, 98] = some [97, 45] :=
  (sepTrimOpt_iff_trimAtSep [97, 45, 98] [97, 45]).mpr (by decide)

/-!  The rename planner (C4, C7).  -/

/-- The plan entry (or skip) the loop of `processDirectory` produces for one
file: `none` when the stripped-and-trimmed name is empty or equals the old
name, `some` entry otherwise. -/
def planEntry (dir pre oldName : ByteStr) : Option RenamePlan :=
  let newName := trimSpace (trimPrefixGo oldName pre)
  if newName = [] then none
  else if oldName ≠ newName then
    some ⟨joinPath dir oldName, joinPath dir newName, oldName, newName⟩
  else none

lemma foldl_planStep (dir pre : ByteStr) :
    ∀ (names : List ByteStr) (acc : List RenamePlan × List ByteStr),
      names.foldl (planStep dir pre) acc =
        (acc.1 ++ names.filterMap (planEntry dir pre),
          acc.2 ++ names.filter
            (fun n => decide (trimSpace (trimPrefixGo n pre) = []))) := by
  intro names
  induction names with
  | nil => intro acc; simp
  | cons n ns ih =>
    intro acc
    rw [List.foldl_cons, ih, List.filterMap_cons, List.filter_cons]
    by_cases h1 : trimSpace (trimPrefixGo n pre) = []
    · simp [planStep, planEntry, h1, List.append_assoc]
    · by_cases h2 : n ≠ trimSpace (trimPrefixGo n pre)
      · simp [planStep, planEntry, h1, h2, List.append_assoc]
      · simp [planStep, planEntry, h1, h2]

lemma mem_buildPlans_fst {dir pre : ByteStr} {names : List ByteStr}
    {e : RenamePlan} :
    e ∈ (buildPlans dir pre names).1 ↔ ∃ n ∈ names, planEntry dir pre n = some e := by
  rw [buildPlans, foldl_planStep]
  simp [List.mem_filterMap]

lemma mem_buildPlans_snd {dir pre : ByteStr} {names : List ByteStr}
    {w : ByteStr} :
    w ∈ (buildPlans dir pre names).2 ↔
      w ∈ names ∧ trimSpace (trimPrefixGo w pre) = [] := by
  rw [buildPlans, foldl_planStep]
  simp [List.mem_filter]

lemma planEntry_some {dir pre n : ByteStr} {e : RenamePlan}
    (h : planEntry dir pre n = some e) :
    e.oldName = n ∧ e.newName = trimSpace (trimPrefixGo n pre) ∧
      e.newName ≠ [] ∧ e.oldName ≠ e.newName ∧
      e.oldPath = joinPath dir n ∧ e.newPath = joinPath dir e.newName := by
  simp only [planEntry] at h
  by_cases h1 : trimSpace (trimPrefixGo n pre) = []
  · rw [if_pos h1] at h
    cases h
  · by_cases h2 : n ≠ trimSpace (trimPrefixGo n pre)
    · rw [if_neg h1, if_pos h2] at h
      have he := Option.some.inj h
      subst he
      exact ⟨rfl, rfl, h1, h2, rfl, rfl⟩
    · rw [if_neg h1, if_neg h2] at h
      cases h

/-- C7: every entry of a constructed rename plan has a non-empty new name
that differs from its old name and a new path that is the directory joined
with the new name; a file whose name becomes empty after prefix-stripping
and whitespace-trimming produces no plan entry but a warning; an identity
result is skipped without a warning. -/
theorem buildPlans_invariants (dir pre : ByteStr) (names : List ByteStr) :
    (∀ e ∈ (buildPlans dir pre names).1,
        e.newName ≠ [] ∧ e.newName ≠ e.oldName ∧
        e.newPath = joinPath dir e.newName) ∧
    (∀ name ∈ names, trimSpace (trimPrefixGo name pre) = [] →
        name ∈ (buildPlans dir pre names).2 ∧
        ∀ e ∈ (buildPlans dir pre names).1, e.oldName ≠ name) ∧
    (∀ name ∈ names, name ≠ [] → trimSpace (trimPrefixGo name pre) = name →
        name ∉ (buildPlans dir pre names).2) := by
  refine ⟨?_, ?_, ?_⟩
  · intro e he
    obtain ⟨n, _, hsome⟩ := mem_buildPlans_fst.mp he
    obtain ⟨_, _, h3, h4, _, h6⟩ := planEntry_some hsome
    exact ⟨h3, fun hx => h4 hx.symm, h6⟩
  · intro name hname hempty
    refine ⟨mem_buildPlans_snd.mpr ⟨hname, hempty⟩, ?_⟩
    intro e he heq
    obtain ⟨h1, h2, h3, _, _, _⟩ := planEntry_some (mem_buildPlans_fst.mp he).choose_spec.2
    apply h3
    have hn : (mem_buildPlans_fst.mp he).choose = name := by
      rw [← h1, heq]
    rw [h2, hn, hempty]
  · intro name _ hne hid hmem
    obtain ⟨_, hempty⟩ := mem_buildPlans_snd.mp hmem
    rw [hid] at hempty
    exact hne hempty

/-- Witness for C7 at a concrete group: directory "d", detected prefix
"xy-", filenames ["xy-a", "xy- ", "zz"]. -/
theorem buildPlans_invariants_inst :
    (∀ e ∈ (buildPlans [100] [120, 121, 45]
        [[120, 121, 45, 97], [120, 121, 45, 32], [122, 122]]).1,
        e.newName ≠ [] ∧ e.newName ≠ e.oldName ∧
        e.newPath = joinPath [100] e.newName) ∧
    (∀ name ∈ [[120, 121, 45, 97], [120, 121, 45, 32], [122, 122]],
        trimSpace (trimPrefixGo name [120, 121, 45]) = [] →
        name ∈ (buildPlans [100] [120, 121, 45]
          [[120, 121, 45, 97], [120, 121, 45, 32], [122, 122]]).2 ∧
        ∀ e ∈ (buildPlans [100] [120, 121, 45]
          [[120, 121, 45, 97], [120, 121, 45, 32], [122, 122]]).1,
          e.oldName ≠ name) ∧
    (∀ name ∈ [[120, 121, 45, 97], [120, 121, 45, 32], [122, 122]],
        name ≠ [] → trimSpace (trimPrefixGo name [120, 121, 45]) = name →
        name ∉ (buildPlans [100] [120, 121, 45]
          [[120, 121, 45, 97], [120, 121, 45, 32], [122, 122]]).2) :=
  buildPlans_invariants [100] [120, 121, 45]
    [[120, 121, 45, 97], [120, 121, 45, 32], [122, 122]]

/-- C4 counterexample: with detected prefix "xy-" and the single filename
" a" (leading space), the filename does not start with the prefix, yet the
plan is not empty — the file is renamed to its whitespace-trimmed form, so
non-matching files are NOT always excluded from the plan. -/
theorem nonmatching_file_planned :
    (buildPlans [100] [120, 121, 45] [[32, 97]]).1 =
      [⟨[100, 47, 32, 97], [100, 47, 97], [32, 97], [97]⟩] ∧
    ([120, 121, 45] : ByteStr).isPrefixOf [32, 97] = false := by
  decide

/-- C4 (amended): a file whose base name does not start with the detected
prefix is excluded from the plan UNLESS whitespace-trimming alone changes
its name; when such a file does get a plan entry, that entry renames it to
exactly its whitespace-trimmed name. -/
theorem nonmatching_plan_entry (dir pre : ByteStr) (names : List ByteStr) :
    ∀ e ∈ (buildPlans dir pre names).1, pre.isPrefixOf e.oldName = false →
      e.newName = trimSpace e.oldName ∧ trimSpace e.oldName ≠ e.oldName := by
  intro e he hpre
  obtain ⟨n, _, hsome⟩ := mem_buildPlans_fst.mp he
  obtain ⟨h1, h2, _, h4, _, _⟩ := planEntry_some hsome
  have htp : trimPrefixGo e.oldName pre = e.oldName := by
    unfold trimPrefixGo
    rw [if_neg]
    simp [hpre]
  have hnew : e.newName = trimSpace e.oldName := by
    rw [h2, ← h1, htp]
  refine ⟨hnew, ?_⟩
  intro hx
  apply h4
  rw [hnew, hx]

/-- Witness for C4's amended theorem at the counterexample entry. -/
theorem nonmatching_plan_entry_inst :
    ((⟨[100, 47, 32, 97], [100, 47, 97], [32, 97], [97]⟩ : RenamePlan).newName =
        trimSpace [32, 97]) ∧ trimSpace [32, 97] ≠ [32, 97] :=
  nonmatching_plan_entry [100] [120, 121, 45] [[32, 97]]
    ⟨[100, 47, 32, 97], [100, 47, 97], [32, 97], [97]⟩ (by decide) (by decide)

/-!  The confirmation step (C8).  -/

/-- C8: an operator input line is affirmative exactly when, after trimming
surrounding whitespace and lowercasing, it equals "y" or "yes"; on any other
line (the empty line included) no rename of the group is executed. -/
theorem confirm_affirmative_iff (line : ByteStr) (plans : List RenamePlan) :
    (isAffirmative line = true ↔
      (normalizeResponse line = [121] ∨ normalizeResponse line = [121, 101, 115])) ∧
    (isAffirmative line = false → executedRenames plans false false line = []) := by
  constructor
  · simp [isAffirmative]
  · intro h
    simp [executedRenames, h]

/-- Witness for C8 at the concrete declined line "n" with a non-empty plan. -/
theorem confirm_affirmative_iff_inst :
    (isAffirmative [110] = true ↔
      (normalizeResponse [110] = [121] ∨ normalizeResponse [110] = [121, 101, 115])) ∧
    (isAffirmative [110] = false →
      executedRenames [⟨[97], [98], [97], [98]⟩] false false [110] = []) :=
  confirm_affirmative_iff [110] [⟨[97], [98], [97], [98]⟩]

/-!  findMajorityPrefix: soundness invariant and claim theorems.  -/

/-- The invariant of `findMajorityPrefix`'s accumulator: it is still the
initial state, or it records an accepted candidate — a prefix of length ≥ 3
of some input filename whose match count reached the threshold, separator
trimmed with the trim strictly inside, and with whitespace-trimmed length
≥ 3. -/
def AcceptedState (strs : List ByteStr) (st : ByteStr × Nat) : Prop :=
  st = ([], 0) ∨
    ∃ s ∈ strs, ∃ L, 3 ≤ L ∧ L ≤ s.length ∧
      countPrefix strs (s.take L) = st.2 ∧
      thresholdGo strs.length ≤ st.2 ∧
      sepTrimOpt (s.take L) = some st.1 ∧
      3 ≤ (trimSpace st.1).length

lemma stepCandidate_sound {strs : List ByteStr} {s : ByteStr} {L : Nat}
    (hs : s ∈ strs) (h3 : 3 ≤ L) (hL : L ≤ s.length) {st : ByteStr × Nat}
    (h : AcceptedState strs st) :
    AcceptedState strs (stepCandidate strs (s.take L) st) := by
  simp only [stepCandidate]
  by_cases hq : thresholdGo strs.length ≤ countPrefix strs (s.take L) ∧
      st.2 < countPrefix strs (s.take L)
  · rw [if_pos hq]
    cases hopt : sepTrimOpt (s.take L) with
    | none => exact h
    | some fp =>
      show AcceptedState strs
        (if 3 ≤ (trimSpace fp).length then (fp, countPrefix strs (s.take L))
          else st)
      by_cases hlen : 3 ≤ (trimSpace fp).length
      · rw [if_pos hlen]
        right
        exact ⟨s, hs, L, h3, hL, rfl, hq.1, hopt, hlen⟩
      · rw [if_neg hlen]
        exact h
  · rw [if_neg hq]
    exact h

lemma candidateLens_bounds {s : ByteStr} {L : Nat} (h : L ∈ candidateLens s) :
    3 ≤ L ∧ L ≤ s.length := by
  unfold candidateLens at h
  obtain ⟨k, hk, rfl⟩ := List.mem_map.mp h
  have hk2 : k < s.length - 2 := List.mem_range.mp hk
  omega

lemma processSource_sound {strs : List ByteStr} {st : ByteStr × Nat}
    {s : ByteStr} (hs : s ∈ strs) (h : AcceptedState strs st) :
    AcceptedState strs (processSource strs st s) := by
  unfold processSource
  refine List.foldlRecOn _ _ _ h ?_
  intro st2 h2 L hL
  obtain ⟨h3, hLe⟩ := candidateLens_bounds hL
  exact stepCandidate_sound hs h3 hLe h2

lemma findMajorityPrefix_sound (strs : List ByteStr) :
    AcceptedState strs (strs.foldl (processSource strs) ([], 0)) :=
  List.foldlRecOn _ _ _ (Or.inl rfl) (fun _ h _ hs => processSource_sound hs h)

lemma specLastSepIdx_some {p : ByteStr} {i : Nat}
    (h : specLastSepIdx p = some i) : i < p.length ∧ sepAt p i = true := by
  have hmem := List.mem_of_mem_getLast? h
  rw [List.mem_filter] at hmem
  exact ⟨List.mem_range.mp hmem.1, hmem.2⟩

lemma sepAt_take {p : ByteStr} {n i : Nat} (hi : i < n) :
    sepAt (p.take n) i = sepAt p i := by
  have g : ∀ j, j < n → (p.take n).getD j 0 = p.getD j 0 := by
    intro j hj
    rw [List.getD_eq_getElem?_getD, List.getD_eq_getElem?_getD,
      List.getElem?_take, if_pos hj]
  unfold sepAt
  rw [g i hi, g (i - 1) (by omega), g (i - 2) (by omega)]

lemma sepTrimOpt_some_facts {p q : ByteStr} (h : sepTrimOpt p = some q) :
    0 < q.length ∧ q.length < p.length ∧ q = p.take q.length ∧
      endsWithSep q = true := by
  cases hls : findLastSep p with
  | none =>
    simp only [sepTrimOpt, hls] at h
    exact Option.noConfusion h
  | some ls =>
    by_cases hc : 0 < ls ∧ ls < p.length
    · simp only [sepTrimOpt, hls] at h
      rw [if_pos hc] at h
      have e1 : q = p.take ls := (Option.some.inj h).symm
      have hlen : q.length = ls := by
        rw [e1, List.length_take]
        exact min_eq_left (le_of_lt hc.2)
      obtain ⟨i, hidx, hls2⟩ : ∃ i, specLastSepIdx p = some i ∧ ls = i + 1 := by
        have := findLastSep_eq p
        rw [hls] at this
        cases hx : specLastSepIdx p with
        | none => rw [hx] at this; cases this
        | some j =>
          rw [hx] at this
          exact ⟨j, rfl, Option.some.inj this⟩
      obtain ⟨hip, hsep⟩ := specLastSepIdx_some hidx
      have hends : endsWithSep q = true := by
        unfold endsWithSep
        have hne : q ≠ [] := by
          intro hw
          rw [hw] at hlen
          simp at hlen
          omega
        have hi1 : q.length - 1 = i := by omega
        rw [hi1]
        have : sepAt q i = true := by
          rw [e1, sepAt_take (by omega : i < ls)]
          exact hsep
        simp [hne, this]
      exact ⟨by omega, by rw [hlen]; exact hc.2, by rw [hlen]; exact e1, hends⟩
    · simp only [sepTrimOpt, hls] at h
      rw [if_neg hc] at h
      cases h

/-- The candidate behind a non-empty result of `findMajorityPrefix`. -/
lemma findMajorityPrefix_cases (strs : List ByteStr)
    (h : findMajorityPrefix strs ≠ []) :
    ∃ s ∈ strs, ∃ L, 3 ≤ L ∧ L ≤ s.length ∧
      thresholdGo strs.length ≤ countPrefix strs (s.take L) ∧
      sepTrimOpt (s.take L) = some (findMajorityPrefix strs) ∧
      3 ≤ (trimSpace (findMajorityPrefix strs)).length := by
  unfold findMajorityPrefix at h ⊢
  by_cases hshort : strs.length < 2
  · rw [if_pos hshort] at h
    exact absurd rfl h
  · rw [if_neg hshort] at h ⊢
    rcases findMajorityPrefix_sound strs with heq |
      ⟨s, hs, L, h3, hL, hcount, hth, hopt, htrim⟩
    · rw [heq] at h
      exact absurd rfl h
    · refine ⟨s, hs, L, h3, hL, ?_, hopt, htrim⟩
      rw [hcount]
      exact hth

/-- C5: `findMajorityPrefix` returns the empty string whenever no candidate
(prefix of length ≥ 3 of an input filename) reaches the threshold; the
witness instantiates this at 3 filenames that are mutually distinct in their
first 3 bytes. -/
theorem findMajorityPrefix_empty_below_threshold (strs : List ByteStr)
    (h : ∀ s ∈ strs, ∀ L, L ≤ s.length → 3 ≤ L →
      countPrefix strs (s.take L) < thresholdGo strs.length) :
    findMajorityPrefix strs = [] := by
  by_contra hne
  obtain ⟨s, hs, L, h3, hL, hth, _, _⟩ := findMajorityPrefix_cases strs hne
  exact absurd hth (Nat.not_le.mpr (h s hs L hL h3))

/-- Witness for C5 at the concrete input ["abc1", "def2", "ghi3"]: no two
share any prefix of length ≥ 3, so the result is empty. -/
theorem findMajorityPrefix_empty_below_threshold_inst :
    (∀ s ∈ ([[97, 98, 99, 49], [100, 101, 102, 50], [103, 104, 105, 51]] :
        List ByteStr), ∀ L, L ≤ s.length → 3 ≤ L →
      countPrefix [[97, 98, 99, 49], [100, 101, 102, 50], [103, 104, 105, 51]]
        (s.take L) <
        thresholdGo ([[97, 98, 99, 49], [100, 101, 102, 50],
          [103, 104, 105, 51]] : List ByteStr).length) ∧
    findMajorityPrefix [[97, 98, 99, 49], [100, 101, 102, 50],
      [103, 104, 105, 51]] = [] :=
  ⟨by decide, findMajorityPrefix_empty_below_threshold _ (by decide)⟩

/-- C9: every non-empty string `findMajorityPrefix` returns ends in a
separator (last byte one of - _ space ) ], or last three bytes
0xE3 0x80 0x91), is a strictly shorter byte-prefix of at least one input
filename, and has whitespace-trimmed length ≥ 3. -/
theorem findMajorityPrefix_ends_in_sep (strs : List ByteStr)
    (h : findMajorityPrefix strs ≠ []) :
    endsWithSep (findMajorityPrefix strs) = true ∧
    (∃ s ∈ strs, (findMajorityPrefix strs).isPrefixOf s = true ∧
      (findMajorityPrefix strs).length < s.length) ∧
    3 ≤ (trimSpace (findMajorityPrefix strs)).length := by
  obtain ⟨s, hs, L, h3, hL, _, hopt, htrim⟩ := findMajorityPrefix_cases strs h
  obtain ⟨hpos, hlt, heq, hends⟩ := sepTrimOpt_some_facts hopt
  have hlenL : (s.take L).length = L := by
    rw [List.length_take]
    exact min_eq_left hL
  rw [hlenL] at hlt
  have hmin : min (findMajorityPrefix strs).length L =
      (findMajorityPrefix strs).length := min_eq_left (le_of_lt hlt)
  have htk : findMajorityPrefix strs =
      s.take (findMajorityPrefix strs).length := by
    calc findMajorityPrefix strs
        = (s.take L).take (findMajorityPrefix strs).length := heq
      _ = s.take (min (findMajorityPrefix strs).length L) := by
          rw [List.take_take]
      _ = s.take (findMajorityPrefix strs).length := by rw [hmin]
  refine ⟨hends, ⟨s, hs, ?_, ?_⟩, htrim⟩
  · refine List.isPrefixOf_iff_prefix.mpr ?_
    conv_lhs => rw [htk]
    exact List.take_prefix _ s
  · omega

/-- Witness for C9 at the concrete input ["ab-c1", "ab-c2"], whose majority
result is "ab-". -/
theorem findMajorityPrefix_ends_in_sep_inst :
    endsWithSep (findMajorityPrefix [[97, 98, 45, 99, 49], [97, 98, 45, 99, 50]]) =
        true ∧
    (∃ s ∈ ([[97, 98, 45, 99, 49], [97, 98, 45, 99, 50]] : List ByteStr),
      (findMajorityPrefix [[97, 98, 45, 99, 49], [97, 98, 45, 99, 50]]).isPrefixOf
          s = true ∧
      (findMajorityPrefix [[97, 98, 45, 99, 49], [97, 98, 45, 99, 50]]).length <
        s.length) ∧
    3 ≤ (trimSpace (findMajorityPrefix [[97, 98, 45, 99, 49],
      [97, 98, 45, 99, 50]])).length :=
  findMajorityPrefix_ends_in_sep _ (by decide)

/-!  Completeness of findMajorityPrefix: one qualifying, separator-trimmable
candidate forces a non-empty result.  -/

lemma thresholdGo_ge_two (n : Nat) : 2 ≤ thresholdGo n := by
  unfold thresholdGo
  by_cases h : truncMul07 n < 2
  · rw [if_pos h]
  · rw [if_neg h]
    omega

/-- Extending a prefix can only lose matches. -/
lemma countPrefix_mono {strs : List ByteStr} {p q : ByteStr} (h : p <+: q) :
    countPrefix strs q ≤ countPrefix strs p := by
  unfold countPrefix
  apply List.countP_mono_left
  intro s _ hq
  exact List.isPrefixOf_iff_prefix.mpr (h.trans (List.isPrefixOf_iff_prefix.mp hq))

/-- The accumulator's best prefix is non-empty as soon as its best match
count is non-zero. -/
def GoodSt (st : ByteStr × Nat) : Prop := st.2 = 0 ∨ st.1 ≠ []

lemma stepCandidate_fst_ne {strs : List ByteStr} {c : ByteStr}
    {st : ByteStr × Nat} (h : st.1 ≠ []) : (stepCandidate strs c st).1 ≠ [] := by
  simp only [stepCandidate]
  by_cases hq : thresholdGo strs.length ≤ countPrefix strs c ∧
      st.2 < countPrefix strs c
  · rw [if_pos hq]
    cases hopt : sepTrimOpt c with
    | none => exact h
    | some fp =>
      show (if 3 ≤ (trimSpace fp).length then (fp, countPrefix strs c) else st).1 ≠ []
      by_cases hlen : 3 ≤ (trimSpace fp).length
      · rw [if_pos hlen]
        obtain ⟨hpos, _, _, _⟩ := sepTrimOpt_some_facts hopt
        intro hfp
        simp only at hfp
        rw [hfp] at hpos
        simp at hpos
      · rw [if_neg hlen]
        exact h
  · rw [if_neg hq]
    exact h

lemma stepCandidate_good {strs : List ByteStr} {c : ByteStr}
    {st : ByteStr × Nat} (h : GoodSt st) : GoodSt (stepCandidate strs c st) := by
  simp only [stepCandidate]
  by_cases hq : thresholdGo strs.length ≤ countPrefix strs c ∧
      st.2 < countPrefix strs c
  · rw [if_pos hq]
    cases hopt : sepTrimOpt c with
    | none => exact h
    | some fp =>
      show GoodSt (if 3 ≤ (trimSpace fp).length then (fp, countPrefix strs c) else st)
      by_cases hlen : 3 ≤ (trimSpace fp).length
      · rw [if_pos hlen]
        right
        obtain ⟨hpos, _, _, _⟩ := sepTrimOpt_some_facts hopt
        intro hfp
        simp only at hfp
        rw [hfp] at hpos
        simp at hpos
      · rw [if_neg hlen]
        exact h
  · rw [if_neg hq]
    exact h

lemma processSource_good {strs : List ByteStr} {st : ByteStr × Nat}
    {s : ByteStr} (h : GoodSt st) : GoodSt (processSource strs st s) := by
  unfold processSource
  exact List.foldlRecOn _ _ _ h (fun _ hb _ _ => stepCandidate_good hb)

lemma processSource_fst_ne {strs : List ByteStr} {st : ByteStr × Nat}
    {s : ByteStr} (h : st.1 ≠ []) : (processSource strs st s).1 ≠ [] := by
  unfold processSource
  exact List.foldlRecOn (motive := fun (b : ByteStr × Nat) => b.1 ≠ []) _ _ _ h
    (fun _ hb _ _ => stepCandidate_fst_ne hb)

/-- Once one qualifying candidate of a source filename trims successfully,
processing that filename leaves a non-empty best prefix. -/
lemma processSource_hits {strs : List ByteStr} {st : ByteStr × Nat}
    {s fp : ByteStr} {L : Nat} (hgood : GoodSt st) (hL : L ∈ candidateLens s)
    (hth : thresholdGo strs.length ≤ countPrefix strs (s.take L))
    (hopt : sepTrimOpt (s.take L) = some fp)
    (hlen : 3 ≤ (trimSpace fp).length) :
    (processSource strs st s).1 ≠ [] := by
  unfold processSource
  obtain ⟨l1, l2, hsplit⟩ := List.append_of_mem hL
  rw [hsplit, List.foldl_append, List.foldl_cons]
  have hgood1 : GoodSt
      (List.foldl (fun a L => stepCandidate strs (s.take L) a) st l1) :=
    List.foldlRecOn _ _ _ hgood (fun _ hb _ _ => stepCandidate_good hb)
  have hne : (stepCandidate strs (s.take L)
      (List.foldl (fun a L => stepCandidate strs (s.take L) a) st l1)).1 ≠ [] := by
    set st1 := List.foldl (fun a L => stepCandidate strs (s.take L) a) st l1
    by_cases hlt : st1.2 < countPrefix strs (s.take L)
    · simp only [stepCandidate]
      rw [if_pos ⟨hth, hlt⟩]
      simp only [hopt]
      rw [if_pos hlen]
      obtain ⟨hpos, _, _, _⟩ := sepTrimOpt_some_facts hopt
      intro hfp
      simp only at hfp
      rw [hfp] at hpos
      simp at hpos
    · have h2 : st1.2 ≠ 0 := by
        have := thresholdGo_ge_two strs.length
        omega
      exact stepCandidate_fst_ne (hgood1.resolve_left h2)
  exact List.foldlRecOn (motive := fun (b : ByteStr × Nat) => b.1 ≠ []) _ _ _ hne
    (fun _ hb _ _ => stepCandidate_fst_ne hb)

/-- Completeness: if some prefix of length ≥ 3 of an input filename has a
match count reaching the threshold and trims at a separator strictly inside
it to a name of whitespace-trimmed length ≥ 3, then `findMajorityPrefix`
returns a non-empty string. -/
lemma findMajorityPrefix_nonempty {strs : List ByteStr} {s fp : ByteStr}
    {L : Nat} (h2 : 2 ≤ strs.length) (hs : s ∈ strs) (hL : L ∈ candidateLens s)
    (hth : thresholdGo strs.length ≤ countPrefix strs (s.take L))
    (hopt : sepTrimOpt (s.take L) = some fp)
    (hlen : 3 ≤ (trimSpace fp).length) :
    findMajorityPrefix strs ≠ [] := by
  unfold findMajorityPrefix
  rw [if_neg (by omega : ¬ strs.length < 2)]
  obtain ⟨u1, u2, hsplit⟩ := List.append_of_mem hs
  rw [hsplit, List.foldl_append, List.foldl_cons]
  rw [hsplit] at hth
  have hgood1 : GoodSt (List.foldl (processSource (u1 ++ s :: u2)) ([], 0) u1) :=
    List.foldlRecOn _ _ _ (Or.inl rfl) (fun _ hb _ _ => processSource_good hb)
  have hne : (processSource (u1 ++ s :: u2)
      (List.foldl (processSource (u1 ++ s :: u2)) ([], 0) u1) s).1 ≠ [] :=
    processSource_hits hgood1 hL hth hopt hlen
  exact List.foldlRecOn (motive := fun (b : ByteStr × Nat) => b.1 ≠ []) _ _ _ hne
    (fun _ hb _ _ => processSource_fst_ne hb)

/-- The 90-filename input refuting C3's exact-arithmetic threshold: 62
filenames "ab-s" followed by one distinguishing byte, and 28 filenames
"x" followed by two digits. -/
def big90 : List ByteStr :=
  (List.range 62).map (fun k => [97, 98, 45, 115, 128 + k]) ++
  (List.range 28).map (fun k => [120, 48 + (k + 10) / 10, 48 + (k + 10) % 10])

set_option maxRecDepth 40000 in
/-- C3 counterexample: for n = 90 filenames the exact-arithmetic threshold
max(2, floor(0.7 × 90)) is 63, but the code's float64 computation
int(float64(90) * 0.7) yields 62 (0.7 is not exactly representable and
90 × float64(0.7) rounds to 62.99999999999999, truncated to 62); on `big90`
every candidate is matched by at most 62 of the 90 filenames — none reaches
the claimed threshold 63 — yet `findMajorityPrefix` accepts the candidate
"ab-s" (match count exactly 62) and returns a non-empty prefix. -/
theorem threshold_not_exact_floor :
    big90.length = 90 ∧
    thresholdGo 90 = 62 ∧
    max 2 (7 * 90 / 10) = 63 ∧
    countPrefix big90 [97, 98, 45, 115] = 62 ∧
    (∀ s ∈ big90, ∀ L, L ≤ s.length → 3 ≤ L →
      countPrefix big90 (s.take L) ≤ 62) ∧
    findMajorityPrefix big90 ≠ [] := by
  refine ⟨by decide, by decide, by decide, by decide, ?_, ?_⟩
  · have hb : ∀ s ∈ big90, countPrefix big90 (s.take 3) ≤ 62 := by decide
    intro s hs L hL h3
    have htt : (s.take L).take 3 = s.take 3 := by
      rw [List.take_take, min_eq_left h3]
    have hpp : s.take 3 <+: s.take L := by
      rw [← htt]
      exact List.take_prefix 3 (s.take L)
    exact le_trans (countPrefix_mono hpp) (hb s hs)
  · exact findMajorityPrefix_nonempty (by decide)
      (show [97, 98, 45, 115, 128] ∈ big90 by decide)
      (show (4 : Nat) ∈ candidateLens [97, 98, 45, 115, 128] by decide)
      (by decide)
      (show sepTrimOpt (List.take 4 [97, 98, 45, 115, 128]) = some [97, 98, 45]
        by decide)
      (by decide)

/-- C3 (amended): the threshold `findMajorityPrefix` uses is
max(2, int(float64(n) * 0.7)) computed in IEEE-754 double arithmetic
(`truncMul07`), which differs from the exact floor(0.7 × n) at some n (first
at n = 90); a candidate is accepted only when the number of filenames
starting with it reaches that float-computed threshold: every non-empty
result is the separator trim of a candidate of length ≥ 3 drawn from an
input filename whose match count is at least max(2, truncMul07 n). -/
theorem findMajorityPrefix_threshold (strs : List ByteStr)
    (h : findMajorityPrefix strs ≠ []) :
    ∃ s ∈ strs, ∃ L, 3 ≤ L ∧ L ≤ s.length ∧
      max 2 (truncMul07 strs.length) ≤ countPrefix strs (s.take L) ∧
      sepTrimOpt (s.take L) = some (findMajorityPrefix strs) := by
  obtain ⟨s, hs, L, h3, hL, hth, hopt, _⟩ := findMajorityPrefix_cases strs h
  refine ⟨s, hs, L, h3, hL, ?_, hopt⟩
  have hmax : thresholdGo strs.length = max 2 (truncMul07 strs.length) := by
    unfold thresholdGo
    by_cases ht : truncMul07 strs.length < 2
    · rw [if_pos ht]
      omega
    · rw [if_neg ht]
      omega
  rw [← hmax]
  exact hth

/-- Witness for C3's amended theorem at the concrete input
["ab-c1", "ab-c2"]. -/
theorem findMajorityPrefix_threshold_inst :
    ∃ s ∈ ([[97, 98, 45, 99, 49], [97, 98, 45, 99, 50]] : List ByteStr),
      ∃ L, 3 ≤ L ∧ L ≤ s.length ∧
        max 2 (truncMul07 ([[97, 98, 45, 99, 49], [97, 98, 45, 99, 50]] :
          List ByteStr).length) ≤
          countPrefix [[97, 98, 45, 99, 49], [97, 98, 45, 99, 50]] (s.take L) ∧
        sepTrimOpt (s.take L) =
          some (findMajorityPrefix [[97, 98, 45, 99, 49], [97, 98, 45, 99, 50]]) :=
  findMajorityPrefix_threshold _ (by decide)

end AudioTool
